import Mathlib

/-!
Verification of the OmahaEquity hand-strength ladder and equity engine
(`omahaequity.py`), as a shallow embedding in Lean 4.

Conventions of the embedding:
* Python ints become `Int` (ranks and suits include the sentinel values
  `deprecated_ace = -1` and `anything = 999`); counts and indices become `Nat`.
* Python float division is modelled exactly over `ℚ`.
* Fallible code is modelled with `Except PyErr`: comparing `None` with an int
  raises `TypeError`, division by zero raises `ZeroDivisionError`, and an
  out-of-range list subscript raises `IndexError`.
* `tally_ranks` returns its tally dictionary as a function `Int → Nat`
  (the Python dict has exactly the keys of `rank_range()`, and the program
  only ever reads it at those keys).
* Imperative accumulation loops are rendered as the equivalent
  `map`/`filter`/`fold` over the same iteration order.
-/

-- ## Adjustable parameters (module-level constants in the source)

def num_ranks : Nat := 13
def num_suits : Nat := 4
def board_size : Nat := 5
def holding_size : Nat := 4
def num_players : Nat := 6

-- ## Constants computed based on parameters

def num_couplets_per_holding : Nat := holding_size * (holding_size - 1) / 2
def num_opponents : Nat := num_players - 1
def num_opponents_couplets : Nat := num_opponents * num_couplets_per_holding

-- ## Non-adjustable constants

def ace : Int := 12
def king : Int := 11
def queen : Int := 10
def jack : Int := 9
def ten : Int := 8
def nine : Int := 7
def eight : Int := 6
def seven : Int := 5
def six : Int := 4
def five : Int := 3
def four : Int := 2
def three : Int := 1
def deuce : Int := 0
def deprecated_ace : Int := -1
def hearts : Int := 3
def spades : Int := 2
def diamonds : Int := 1
def clubs : Int := 0
def anything : Int := 999

-- ## Card and Couplet

structure Card where
  rank : Int
  suit : Int
deriving DecidableEq, Repr

def Card.is_copy (self target : Card) : Bool :=
  self.rank == target.rank && self.suit == target.suit

def Card.fulfills (self target : Card) : Bool :=
  (target.rank == anything || self.rank == target.rank) &&
  (target.suit == anything || self.suit == target.suit)

/-- The source loops over `board` returning `False` at the first copy. -/
def Card.is_compatible (self : Card) (board : List Card) : Bool :=
  board.all (fun target => !(self.is_copy target))

/-- A couplet is two cards that form a subset of a player's holding. -/
structure Couplet where
  card_1 : Card
  card_2 : Card
deriving DecidableEq, Repr

def Couplet.fulfills (self target : Couplet) : Bool :=
  (self.card_1.fulfills target.card_1 && self.card_2.fulfills target.card_2) ||
  (self.card_1.fulfills target.card_2 && self.card_2.fulfills target.card_1)

def Couplet.is_compatible (self : Couplet) (board : List Card) : Bool :=
  self.card_1.is_compatible board && self.card_2.is_compatible board

-- ## Ranges and the deck

/-- Python `range(a, b)` over integers, ascending. -/
def rangeInt (a b : Int) : List Int :=
  (List.range (b - a).toNat).map (fun (i : Nat) => a + (i : Int))

/-- Python `reversed(range(num_ranks))`: ranks from high to low. -/
def rank_range : List Int := (rangeInt 0 (num_ranks : Int)).reverse

/-- Python `reversed(range(num_suits))`: suits from high to low. -/
def suit_range : List Int := (rangeInt 0 (num_suits : Int)).reverse

def assemble_deck : List Card :=
  (rank_range.map (fun rank => suit_range.map (fun suit => Card.mk rank suit))).flatten

def partition_by_suit (board : List Card) : List (List Card) :=
  suit_range.map (fun suit => board.filter (fun card => card.suit == suit))

def extract_ranks (board : List Card) (include_deprecation : Bool) : List Int :=
  let board_ranks := board.map (fun card => card.rank)
  if include_deprecation then
    board_ranks ++ (board_ranks.filter (fun rank => rank == ace)).map (fun _ => deprecated_ace)
  else
    board_ranks

/-- The tally dictionary, read as a function on ranks. -/
def tally_ranks (board : List Card) : Int → Nat :=
  fun rank => (extract_ranks board false).count rank

def max_tally (rank_tallies : Int → Nat) : Nat :=
  rank_range.foldl
    (fun most_of_one_rank rank =>
      if rank_tallies rank > most_of_one_rank then rank_tallies rank else most_of_one_rank) 0

/-- First-match search, as in the source loops that `return` on a hit. -/
def find_index (p : α → Bool) : List α → Option Nat
  | [] => none
  | x :: xs => if p x then some 0 else (find_index p xs).map (· + 1)

def highest_repeated_rank (rank_tallies : Int → Nat) : Option Int :=
  rank_range.find? (fun rank => rank_tallies rank > 1)

/-- Construct a couplet whose cards share the given rank. -/
def pair_couplet (rank : Int) : Couplet :=
  Couplet.mk (Card.mk rank anything) (Card.mk rank anything)

/-- Convert the (first) two cards in a list-of-cards into a couplet.
The source subscripts `cards[0]` and `cards[1]`; it is only applied to
lists with at least two elements, so the fallback patterns are never hit
in the program. -/
def couplify : List Card → Couplet
  | card_1 :: card_2 :: _ => Couplet.mk card_1 card_2
  | [card_1] => Couplet.mk card_1 card_1
  | [] => Couplet.mk (Card.mk 0 0) (Card.mk 0 0)

/-- Convert the (first) two ranks in a list-of-ranks into a couplet;
the modulo undeprecates any Aces. -/
def couplify_ranks : List Int → Int → Couplet
  | rank_1 :: rank_2 :: _, suit =>
      Couplet.mk (Card.mk (rank_1 % (num_ranks : Int)) suit)
                 (Card.mk (rank_2 % (num_ranks : Int)) suit)
  | [rank_1], suit =>
      Couplet.mk (Card.mk (rank_1 % (num_ranks : Int)) suit)
                 (Card.mk (rank_1 % (num_ranks : Int)) suit)
  | [], suit => Couplet.mk (Card.mk 0 suit) (Card.mk 0 suit)

def remove_incompatible_couplets (level : List Couplet) (forbidden_cards : List Card) :
    List Couplet :=
  level.filter (fun couplet => couplet.is_compatible forbidden_cards)

def index_of_level_containing (target_couplet : Couplet) (levels : List (List Couplet)) :
    Option Nat :=
  find_index (fun level => level.any (fun couplet => target_couplet.fulfills couplet)) levels

/-- Python `itertools.combinations(zet, n)`: all length-`n` subsequences, in the
order induced by the order of `zet`. -/
def subsets_of_size : Nat → List α → List (List α)
  | 0, _ => [[]]
  | _ + 1, [] => []
  | n + 1, x :: xs => ((subsets_of_size n xs).map (fun t => x :: t)) ++ subsets_of_size (n + 1) xs

def flatten (lizt : List (List α)) : List α := lizt.flatten

def remove_empty_levels (levels : List (List Couplet)) : List (List Couplet) :=
  levels.filter (fun level => level.length > 0)

-- ## Level builders

/-- Python `sorted(l, reverse=True)` on integers (insertion sort; the program only
sorts duplicate-free rank lists, so stability is immaterial). -/
def insertDesc (x : Int) : List Int → List Int
  | [] => [x]
  | y :: ys => if x ≥ y then x :: y :: ys else y :: insertDesc x ys

def sortDesc (l : List Int) : List Int := l.foldr insertDesc []

/-- The source builds `unique_board_ranks` by appending each rank not yet
present, preserving first-occurrence order. -/
def unique_ranks (l : List Int) : List Int :=
  l.foldl (fun acc rank => if rank ∈ acc then acc else acc ++ [rank]) []

/-- List all couplets which form a `high_rank`-high straight given the board. -/
def straight_level_with_suit (high_rank : Int) (board_ranks : List Int)
    (suit_to_record : Int) : List Couplet :=
  let straight_ranks := (rangeInt (high_rank - 4) (high_rank + 1)).reverse
  ((subsets_of_size 3 (sortDesc board_ranks)).filter
      (fun subset => subset ∈ subsets_of_size 3 straight_ranks)).map
    (fun subset =>
      couplify_ranks (straight_ranks.filter (fun rank => rank ∉ subset)) suit_to_record)

def straight_levels_with_suit (board : List Card) (suit_to_record : Int) :
    List (List Couplet) :=
  let unique_board_ranks := unique_ranks (extract_ranks board true)
  remove_empty_levels
    (((rangeInt five (num_ranks : Int)).reverse).map
      (fun rank => straight_level_with_suit rank unique_board_ranks suit_to_record))

def straight_levels (board : List Card) : List (List Couplet) :=
  straight_levels_with_suit board anything

def straight_flush_levels (board : List Card) : List (List Couplet) :=
  let levels :=
    ((partition_by_suit board).map
      (fun subboard =>
        if subboard.length ≥ 3 then
          straight_levels_with_suit subboard ((subboard.headD (Card.mk 0 0)).suit)
        else [])).flatten
  remove_empty_levels
    (levels.map (fun inner_level => remove_incompatible_couplets inner_level board))

def four_of_a_kind_levels (board : List Card) : List (List Couplet) :=
  let rank_tallies := tally_ranks board
  (rank_range.map
    (fun rank =>
      if rank_tallies rank == 2 then [[pair_couplet rank]]
      else if rank_tallies rank ≥ 3 then
        [[Couplet.mk (Card.mk rank anything) (Card.mk anything anything)]]
      else [])).flatten

/-- The `most_of_one_rank >= 3` scan of `full_house_levels`: the
`continue_scan = False` assignment makes the loop ignore every rank after the
first rank with tally at least 3, which is rendered as stopping there. -/
def full_house_scan (rank_tallies : Int → Nat) : List Int → List (List Couplet)
  | [] => []
  | rank :: rest =>
      if rank_tallies rank == 1 then [pair_couplet rank] :: full_house_scan rank_tallies rest
      else if rank_tallies rank ≥ 3 then
        (rank_range.filter
            (fun inner_rank =>
              rank_tallies inner_rank == 0 ||
              (rank_tallies inner_rank == 1 && decide (inner_rank < rank)))).map
          (fun inner_rank => [pair_couplet inner_rank])
      else full_house_scan rank_tallies rest

def full_house_levels (board : List Card) : List (List Couplet) :=
  let rank_tallies := tally_ranks board
  let most_of_one_rank := max_tally rank_tallies
  if most_of_one_rank == 2 then
    (rank_range.map
      (fun rank =>
        if rank_tallies rank == 1 then [[pair_couplet rank]]
        else if rank_tallies rank == 2 then
          (rank_range.filter
              (fun inner_rank =>
                rank_tallies inner_rank == 1 ||
                (rank_tallies inner_rank == 2 && decide (inner_rank < rank)))).map
            (fun inner_rank =>
              [Couplet.mk (Card.mk rank anything) (Card.mk inner_rank anything)])
        else [])).flatten
  else if most_of_one_rank ≥ 3 then full_house_scan rank_tallies rank_range
  else []

def flush_levels (board : List Card) : List (List Couplet) :=
  ((partition_by_suit board).map
    (fun subboard =>
      if subboard.length ≥ 3 then
        (((rangeInt three (num_ranks : Int)).reverse).filter
            (fun rank => rank ∉ extract_ranks subboard false)).map
          (fun novel_rank =>
            [Couplet.mk (Card.mk novel_rank ((subboard.headD (Card.mk 0 0)).suit))
                        (Card.mk anything ((subboard.headD (Card.mk 0 0)).suit))])
      else [])).flatten

/-- The `most_of_one_rank >= 3` scan of `three_of_a_kind_levels`, carrying the
`tally_2_overranks` accumulator; the loop stops at the first rank with tally
exactly 3 (a tally of 4 or more matches neither branch and is skipped). -/
def three_of_a_kind_scan (rank_tallies : Int → Nat) (tally_2_overranks : List Int) :
    List Int → List (List Couplet)
  | [] => []
  | rank :: rest =>
      if rank_tallies rank == 2 then
        ((rank_range.filter (fun inner_rank => rank_tallies inner_rank == 0)).map
          (fun inner_rank =>
            [Couplet.mk (Card.mk rank anything) (Card.mk inner_rank anything)])) ++
        three_of_a_kind_scan rank_tallies (tally_2_overranks ++ [rank]) rest
      else if rank_tallies rank == 3 then
        let higher_kicker_rank_range :=
          rank_range.filter
            (fun inner_rank => inner_rank != rank && decide (inner_rank ∉ tally_2_overranks))
        (higher_kicker_rank_range.map
          (fun higher_kicker_rank =>
            (higher_kicker_rank_range.filter
                (fun inner_rank => decide (inner_rank < higher_kicker_rank))).map
              (fun lower_kicker_rank =>
                [Couplet.mk (Card.mk higher_kicker_rank anything)
                            (Card.mk lower_kicker_rank anything)]))).flatten
      else three_of_a_kind_scan rank_tallies tally_2_overranks rest

def three_of_a_kind_levels (board : List Card) : List (List Couplet) :=
  let rank_tallies := tally_ranks board
  let most_of_one_rank := max_tally rank_tallies
  if most_of_one_rank == 1 then
    (rank_range.map
      (fun rank => if rank_tallies rank == 1 then [[pair_couplet rank]] else [])).flatten
  else if most_of_one_rank == 2 then
    (rank_range.map
      (fun rank =>
        if rank_tallies rank == 2 then
          (rank_range.filter (fun inner_rank => rank_tallies inner_rank == 0)).map
            (fun inner_rank =>
              [Couplet.mk (Card.mk rank anything) (Card.mk inner_rank anything)])
        else [])).flatten
  else if most_of_one_rank ≥ 3 then three_of_a_kind_scan rank_tallies [] rank_range
  else []

def two_pair_levels (board : List Card) : List (List Couplet) :=
  let rank_tallies := tally_ranks board
  let most_of_one_rank := max_tally rank_tallies
  if most_of_one_rank == 1 then
    let higher_pair_rank_range := rank_range.filter (fun rank => rank_tallies rank == 1)
    (higher_pair_rank_range.map
      (fun higher_pair_rank =>
        (higher_pair_rank_range.filter (fun rank => decide (rank < higher_pair_rank))).map
          (fun lower_pair_rank =>
            [Couplet.mk (Card.mk higher_pair_rank anything)
                        (Card.mk lower_pair_rank anything)]))).flatten
  else if most_of_one_rank == 2 then
    let board_pair_rank := (highest_repeated_rank rank_tallies).getD 0
    (rank_range.map
      (fun rank =>
        (if rank_tallies rank == 0 then [[pair_couplet rank]] else []) ++
        (if rank_tallies rank == 1 then
          ((rank_range.filter
              (fun inner_rank =>
                decide (inner_rank > board_pair_rank) && rank_tallies inner_rank == 1 &&
                inner_rank != rank)).map
            (fun inner_rank =>
              [Couplet.mk (Card.mk rank anything) (Card.mk inner_rank anything)])) ++
          ((rank_range.filter
              (fun inner_rank =>
                decide (inner_rank < board_pair_rank) || rank_tallies inner_rank == 0)).map
            (fun inner_rank =>
              [Couplet.mk (Card.mk rank anything) (Card.mk inner_rank anything)]))
        else []))).flatten
  else []

def one_pair_levels (board : List Card) : List (List Couplet) :=
  let rank_tallies := tally_ranks board
  let most_of_one_rank := max_tally rank_tallies
  if most_of_one_rank == 1 then
    (rank_range.map
      (fun rank =>
        (if rank_tallies rank == 0 then [[pair_couplet rank]] else []) ++
        (if rank_tallies rank == 1 then
          (rank_range.filter (fun inner_rank => rank_tallies inner_rank == 0)).map
            (fun inner_rank =>
              [Couplet.mk (Card.mk rank anything) (Card.mk inner_rank anything)])
        else []))).flatten
  else if most_of_one_rank == 2 then
    let higher_kicker_rank_range := rank_range.filter (fun rank => rank_tallies rank == 0)
    (higher_kicker_rank_range.map
      (fun higher_kicker_rank =>
        (higher_kicker_rank_range.filter (fun rank => decide (rank < higher_kicker_rank))).map
          (fun lower_kicker_rank =>
            [Couplet.mk (Card.mk higher_kicker_rank anything)
                        (Card.mk lower_kicker_rank anything)]))).flatten
  else []

def high_card_levels (board : List Card) : List (List Couplet) :=
  let rank_tallies := tally_ranks board
  let most_of_one_rank := max_tally rank_tallies
  if most_of_one_rank == 1 then
    let higher_kicker_rank_range := rank_range.filter (fun rank => rank_tallies rank == 0)
    (higher_kicker_rank_range.map
      (fun higher_kicker_rank =>
        (higher_kicker_rank_range.filter (fun rank => decide (rank < higher_kicker_rank))).map
          (fun lower_kicker_rank =>
            [Couplet.mk (Card.mk higher_kicker_rank anything)
                        (Card.mk lower_kicker_rank anything)]))).flatten
  else []

/-- The catch-all pattern of the terminal level of `all_levels`. -/
def catch_all : Couplet := Couplet.mk (Card.mk anything anything) (Card.mk anything anything)

def all_levels (board : List Card) : List (List Couplet) :=
  straight_flush_levels board ++
  four_of_a_kind_levels board ++
  full_house_levels board ++
  flush_levels board ++
  straight_levels board ++
  three_of_a_kind_levels board ++
  two_pair_levels board ++
  one_pair_levels board ++
  high_card_levels board ++
  [[catch_all]]

-- ## The ladder resolver

/-- The remaining deck and its two-card combinations, as enumerated at the top
of `specify`. -/
def remaining_deck (board : List Card) : List Card :=
  assemble_deck.filter (fun card => card.is_compatible board)

def remaining_couplets (board : List Card) : List Couplet :=
  (subsets_of_size 2 (remaining_deck board)).map couplify

/-- One step of the scan inside `specify`: append the concrete couplet to the
specific level of the first generic level any of whose patterns it fulfills
(`continue_scan` makes the source loop ignore all later levels). -/
def place_couplet (c : Couplet) :
    List (List Couplet) → List (List Couplet) → List (List Couplet)
  | g :: gs, s :: ss =>
      if g.any (fun p => c.fulfills p) then (s ++ [c]) :: ss
      else s :: place_couplet c gs ss
  | _, ss => ss

def specifyRaw (generic_levels : List (List Couplet)) (board : List Card) :
    List (List Couplet) :=
  (remaining_couplets board).foldl
    (fun specific_levels c => place_couplet c generic_levels specific_levels)
    (generic_levels.map (fun _ => []))

/-- Explicitly list out all couplets belonging to each level, resolving all
uses of the "anything" keyword. -/
def specify (generic_levels : List (List Couplet)) (board : List Card) :
    List (List Couplet) :=
  remove_empty_levels (specifyRaw generic_levels board)

-- ## The equity engine

/-- Python exceptions reachable inside `utility`. -/
inductive PyErr where
  | typeError
  | zeroDivisionError
  | indexError
deriving DecidableEq, Repr

def holding_couplets (holding : List Card) : List Couplet :=
  (subsets_of_size 2 holding).map couplify

/-- The loop locating `best_level_index`.  Python compares
`level_index < best_level_index`, which raises `TypeError` when
`index_of_level_containing` returned `None`. -/
def best_level_index (couplets : List Couplet) (levels : List (List Couplet)) :
    Except PyErr Nat :=
  couplets.foldlM
    (fun best c =>
      match index_of_level_containing c levels with
      | none => Except.error PyErr.typeError
      | some level_index =>
          Except.ok (if level_index < best then level_index else best))
    levels.length

/-- The tail of `utility` after `best_level_index` has been located: count the
better, equipotent and worse compatible couplets and combine the win
probability with the expected pot fraction.

The `try`/`except ZeroDivisionError` around the accumulation loop is rendered
as an `if`: the divisors `comb(num_equipotent + num_worse, num_opponents_couplets)`
and `num_winners ≥ 1` are the same in every iteration, so the division fails
(on the very first iteration, before anything accumulates) exactly when that
binomial coefficient is zero, and then the expected pot fraction is left at 0.
The division defining `prob_best_hand` is outside the `try`. -/
def utility_tail (holding board : List Card) (best : Nat) : Except PyErr ℚ :=
  let levels := specify (all_levels board) board
  if hb : best < levels.length then
    let num_better :=
      (remove_incompatible_couplets (flatten (levels.take best)) holding).length
    let num_equipotent :=
      (remove_incompatible_couplets (levels.get ⟨best, hb⟩) holding).length
    let num_worse :=
      (remove_incompatible_couplets (flatten (levels.drop (best + 1))) holding).length
    let denom := Nat.choose (num_better + num_equipotent + num_worse) num_opponents_couplets
    if denom = 0 then Except.error PyErr.zeroDivisionError
    else
      let prob_best_hand : ℚ :=
        (Nat.choose (num_equipotent + num_worse) num_opponents_couplets : ℚ) / (denom : ℚ)
      let tie_denom := Nat.choose (num_equipotent + num_worse) num_opponents_couplets
      let expected_pot_fraction_given_best_hand : ℚ :=
        if tie_denom = 0 then 0
        else
          ∑ k ∈ Finset.range (min (num_equipotent + 1) (num_opponents_couplets + 1)),
            ((Nat.choose num_equipotent k *
                Nat.choose num_worse (num_opponents_couplets - k) : ℚ) / (tie_denom : ℚ)) /
              ((k : ℚ) + 1)
      Except.ok (prob_best_hand * expected_pot_fraction_given_best_hand)
  else Except.error PyErr.indexError

/-- Compute what fraction of the pot a player with the given holding can
expect to win on the given board on average. -/
def utility (holding board : List Card) : Except PyErr ℚ := do
  let levels := specify (all_levels board) board
  let best ← best_level_index (holding_couplets holding) levels
  utility_tail holding board best

/-- The spec's board-only entry point `rank_ladder`: the concrete ladder for a
board, as computed inside `utility` (and by the trial driver via
`specify(all_levels(board), board)`). -/
def rank_ladder (board : List Card) : List (List Couplet) :=
  specify (all_levels board) board


-- ## Validity of inputs, and spec-side definitions used by single claims

/-- A real (dealt) card: rank and suit in range, so in particular neither
field is a wildcard or a deprecated ace. -/
def real_card (c : Card) : Prop :=
  0 ≤ c.rank ∧ c.rank < (num_ranks : Int) ∧ 0 ≤ c.suit ∧ c.suit < (num_suits : Int)

instance (c : Card) : Decidable (real_card c) := by
  unfold real_card
  infer_instance

/-- A well-formed board: `board_size` distinct real cards. -/
def valid_board (board : List Card) : Prop :=
  board.length = board_size ∧ board.Nodup ∧ ∀ c ∈ board, real_card c

instance (board : List Card) : Decidable (valid_board board) := by
  unfold valid_board
  infer_instance

/-- A well-formed holding for a given board: `holding_size` distinct real
cards, none of which appears on the board. -/
def valid_holding (holding board : List Card) : Prop :=
  holding.length = holding_size ∧ holding.Nodup ∧
    (∀ c ∈ holding, real_card c) ∧ ∀ c ∈ holding, c ∉ board

instance (holding board : List Card) : Decidable (valid_holding holding board) := by
  unfold valid_holding
  infer_instance

/-- The total number of remaining concrete couplets compatible with the
holding (the population the opponents' couplets are drawn from). -/
def total_remaining_compatible (holding board : List Card) : Nat :=
  ((remaining_couplets board).filter (fun c => c.is_compatible holding)).length

/-- The flush-level ladder exactly as the spec words it: for each suit (in
descending suit order) having at least 3 board cards of that suit, one level
per rank at least `three` that is absent from that suit's board cards, in
descending rank order, each level being the single pattern "that rank of that
suit plus anything of that suit"; nothing for suits with fewer than 3 board
cards. -/
def flush_levels_spec (board : List Card) : List (List Couplet) :=
  (suit_range.map
    (fun suit =>
      let suited := board.filter (fun card => card.suit == suit)
      if 3 ≤ suited.length then
        (((rangeInt three (num_ranks : Int)).reverse).filter
            (fun rank => rank ∉ suited.map (fun card => card.rank))).map
          (fun rank => [Couplet.mk (Card.mk rank suit) (Card.mk anything suit)])
      else [])).flatten

-- # Helper lemmas

-- ## find_index

theorem find_index_cons {p : α → Bool} {x : α} {xs : List α} :
    find_index p (x :: xs) =
      if p x then some 0 else (find_index p xs).map (· + 1) := rfl

theorem find_index_lt_length {p : α → Bool} {l : List α} {i : Nat}
    (h : find_index p l = some i) : i < l.length := by
  induction l generalizing i with
  | nil => simp [find_index] at h
  | cons x xs ih =>
    rw [find_index_cons] at h
    by_cases hp : p x
    · rw [if_pos hp, Option.some_inj] at h
      subst h
      simp
    · rw [if_neg hp] at h
      obtain ⟨j, hj, hji⟩ := Option.map_eq_some'.mp h
      subst hji
      have := ih hj
      simp only [List.length_cons]
      omega

theorem find_index_isSome_of_exists {p : α → Bool} {l : List α}
    (h : ∃ x ∈ l, p x) : ∃ i, find_index p l = some i := by
  induction l with
  | nil => simp at h
  | cons x xs ih =>
    by_cases hp : p x
    · exact ⟨0, by simp [find_index_cons, hp]⟩
    · obtain ⟨y, hy, hpy⟩ := h
      rw [List.mem_cons] at hy
      rcases hy with rfl | hy
      · exact absurd hpy hp
      · obtain ⟨i, hi⟩ := ih ⟨y, hy, hpy⟩
        exact ⟨i + 1, by simp [find_index_cons, hp, hi]⟩

theorem find_index_eq_none_iff {p : α → Bool} {l : List α} :
    find_index p l = none ↔ ∀ x ∈ l, ¬ p x := by
  induction l with
  | nil => simp [find_index]
  | cons x xs ih =>
    rw [find_index_cons]
    by_cases hp : p x
    · simp [hp]
    · rw [if_neg hp, Option.map_eq_none', ih]
      constructor
      · intro hall y hy
        rw [List.mem_cons] at hy
        rcases hy with rfl | hy
        · exact hp
        · exact hall y hy
      · intro hall y hy
        exact hall y (List.mem_cons_of_mem x hy)

-- ## subsets_of_size

theorem mem_subsets_of_size {n : Nat} {l s : List α} :
    s ∈ subsets_of_size n l ↔ s.Sublist l ∧ s.length = n := by
  induction l generalizing n s with
  | nil =>
    cases n with
    | zero =>
      simp only [subsets_of_size, List.mem_singleton]
      constructor
      · rintro rfl; exact ⟨List.Sublist.refl _, rfl⟩
      · rintro ⟨hs, hn⟩; exact List.eq_nil_of_length_eq_zero hn
    | succ m =>
      simp only [subsets_of_size, List.not_mem_nil, false_iff, not_and]
      intro hs
      have h1 : s.length ≤ 0 := by simpa using hs.length_le
      omega
  | cons x xs ih =>
    cases n with
    | zero =>
      simp only [subsets_of_size, List.mem_singleton]
      constructor
      · rintro rfl; exact ⟨List.nil_sublist _, rfl⟩
      · rintro ⟨_, hn⟩; exact List.eq_nil_of_length_eq_zero hn
    | succ m =>
      simp only [subsets_of_size, List.mem_append, List.mem_map]
      constructor
      · rintro (⟨t, ht, rfl⟩ | hmem)
        · obtain ⟨hsub, hlen⟩ := ih.mp ht
          exact ⟨hsub.cons₂ x, by simp [hlen]⟩
        · obtain ⟨hsub, hlen⟩ := ih.mp hmem
          exact ⟨hsub.cons x, hlen⟩
      · rintro ⟨hsub, hlen⟩
        cases hsub with
        | cons _ h => exact Or.inr (ih.mpr ⟨h, hlen⟩)
        | cons₂ _ h =>
          rename_i t
          exact Or.inl ⟨t, ih.mpr ⟨h, by simpa using hlen⟩, rfl⟩

theorem length_subsets_of_size (n : Nat) (l : List α) :
    (subsets_of_size n l).length = Nat.choose l.length n := by
  induction l generalizing n with
  | nil => cases n <;> simp [subsets_of_size]
  | cons x xs ih =>
    cases n with
    | zero => simp [subsets_of_size]
    | succ m =>
      simp only [subsets_of_size, List.length_append, List.length_map, ih,
        List.length_cons]
      rw [Nat.choose_succ_succ', Nat.add_comm]

theorem subsets_of_size_filter (p : α → Bool) (n : Nat) (l : List α) :
    subsets_of_size n (l.filter p) = (subsets_of_size n l).filter (fun s => s.all p) := by
  induction l generalizing n with
  | nil =>
    cases n with
    | zero => simp [subsets_of_size]
    | succ m => simp [subsets_of_size]
  | cons x xs ih =>
    cases n with
    | zero => simp [subsets_of_size]
    | succ m =>
      by_cases hp : p x
      · rw [List.filter_cons_of_pos hp]
        simp only [subsets_of_size, List.filter_append, ih, List.filter_map]
        congr 2
        apply List.filter_congr
        intro s _
        simp [Function.comp, hp]
      · rw [List.filter_cons_of_neg hp]
        simp only [subsets_of_size, List.filter_append, ih, List.filter_map]
        have hnil : (subsets_of_size m xs).filter ((fun s => s.all p) ∘ (fun t => x :: t)) = [] := by
          apply List.filter_eq_nil_iff.mpr
          intro s _
          simp [Function.comp, hp]
        rw [hnil]
        simp

-- ## place_couplet and the structure of specifyRaw

theorem place_couplet_nil (c : Couplet) (sls : List (List Couplet)) :
    place_couplet c [] sls = sls := by
  cases sls <;> rfl

theorem place_couplet_length (c : Couplet) (gls sls : List (List Couplet)) :
    (place_couplet c gls sls).length = sls.length := by
  induction gls generalizing sls with
  | nil => rw [place_couplet_nil]
  | cons g gs ih =>
    cases sls with
    | nil => rfl
    | cons s ss =>
      simp only [place_couplet]
      by_cases h : g.any (fun p => c.fulfills p)
      · rw [if_pos h]
        simp
      · rw [if_neg h]
        simp [ih]

theorem option_map_succ_eq_some_succ {o : Option Nat} {i : Nat} :
    o.map (· + 1) = some (i + 1) ↔ o = some i := by
  cases o with
  | none => simp
  | some j => simp

theorem place_couplet_get (c : Couplet) (gls : List (List Couplet)) :
    ∀ (sls : List (List Couplet)), sls.length = gls.length →
    ∀ (i : Nat) (hi : i < sls.length) (hi' : i < (place_couplet c gls sls).length),
      (place_couplet c gls sls).get ⟨i, hi'⟩ =
        if index_of_level_containing c gls = some i
        then sls.get ⟨i, hi⟩ ++ [c] else sls.get ⟨i, hi⟩ := by
  induction gls with
  | nil =>
    intro sls hlen i hi hi'
    have hnone : index_of_level_containing c [] = none := rfl
    rw [hnone, if_neg (by simp)]
    cases sls with
    | nil => simp at hi
    | cons s ss => rfl
  | cons g gs ih =>
    intro sls hlen i hi hi'
    cases sls with
    | nil => simp at hlen
    | cons s ss =>
      have hlen' : ss.length = gs.length := by simpa using hlen
      by_cases h : g.any (fun p => c.fulfills p)
      · have hplace : place_couplet c (g :: gs) (s :: ss) = (s ++ [c]) :: ss := by
          simp [place_couplet, h]
        have hidx : index_of_level_containing c (g :: gs) = some 0 := by
          simp [index_of_level_containing, find_index_cons, h]
        cases i with
        | zero => simp [hplace, hidx]
        | succ j =>
          have hne : ¬ (some 0 = some (j + 1)) := by simp
          rw [hidx, if_neg hne]
          simp [hplace]
      · have hplace : place_couplet c (g :: gs) (s :: ss) = s :: place_couplet c gs ss := by
          simp [place_couplet, h]
        have hidx : index_of_level_containing c (g :: gs) =
            (index_of_level_containing c gs).map (· + 1) := by
          simp [index_of_level_containing, find_index_cons, h]
        cases i with
        | zero =>
          have hne : ¬ ((index_of_level_containing c gs).map (· + 1) = some 0) := by
            cases index_of_level_containing c gs <;> simp
          rw [hidx, if_neg hne]
          simp [hplace]
        | succ j =>
          have hj : j < ss.length := by simpa using hi
          have hj' : j < (place_couplet c gs ss).length := by
            rw [place_couplet_length]; exact hj
          have hL : (place_couplet c (g :: gs) (s :: ss)).get ⟨j + 1, hi'⟩ =
              (place_couplet c gs ss).get ⟨j, hj'⟩ := by
            simp [hplace]
          rw [hL, ih ss hlen' j hj hj', hidx]
          by_cases hcase : index_of_level_containing c gs = some j
          · rw [if_pos hcase, if_pos (by simp [hcase])]
            rfl
          · rw [if_neg hcase, if_neg (by
              rw [option_map_succ_eq_some_succ]; exact hcase)]
            rfl

theorem fold_place_length (gls : List (List Couplet)) (cs : List Couplet) :
    ∀ init : List (List Couplet),
      (cs.foldl (fun s c => place_couplet c gls s) init).length = init.length := by
  induction cs with
  | nil => intro init; rfl
  | cons c cs ih =>
    intro init
    rw [List.foldl_cons, ih, place_couplet_length]

theorem fold_place_get (gls : List (List Couplet)) :
    ∀ (cs : List Couplet) (init : List (List Couplet)), init.length = gls.length →
    ∀ (i : Nat) (hi : i < init.length)
      (hi' : i < (cs.foldl (fun s c => place_couplet c gls s) init).length),
      (cs.foldl (fun s c => place_couplet c gls s) init).get ⟨i, hi'⟩ =
        init.get ⟨i, hi⟩ ++
          cs.filter (fun c => decide (index_of_level_containing c gls = some i)) := by
  intro cs
  induction cs with
  | nil =>
    intro init hlen i hi hi'
    simp
  | cons c cs ih =>
    intro init hlen i hi hi'
    have hlen2 : (place_couplet c gls init).length = gls.length := by
      rw [place_couplet_length]; exact hlen
    have hi2 : i < (place_couplet c gls init).length := by
      rw [place_couplet_length]; exact hi
    have hi3 : i < ((cs.foldl (fun s c => place_couplet c gls s)
        (place_couplet c gls init))).length := by
      rw [fold_place_length, place_couplet_length]; exact hi
    have hstep : ((c :: cs).foldl (fun s c => place_couplet c gls s) init).get ⟨i, hi'⟩ =
        (cs.foldl (fun s c => place_couplet c gls s) (place_couplet c gls init)).get
          ⟨i, hi3⟩ := rfl
    rw [hstep, ih (place_couplet c gls init) hlen2 i hi2 hi3]
    rw [place_couplet_get c gls init hlen i hi hi2]
    by_cases hcase : index_of_level_containing c gls = some i
    · rw [if_pos hcase, List.filter_cons_of_pos (by simp [hcase]), List.append_assoc]
      rfl
    · rw [if_neg hcase, List.filter_cons_of_neg (by simp [hcase])]

theorem specifyRaw_length (gls : List (List Couplet)) (board : List Card) :
    (specifyRaw gls board).length = gls.length := by
  unfold specifyRaw
  rw [fold_place_length, List.length_map]

theorem specifyRaw_eq (gls : List (List Couplet)) (board : List Card) :
    specifyRaw gls board =
      (List.range gls.length).map
        (fun i => (remaining_couplets board).filter
          (fun c => decide (index_of_level_containing c gls = some i))) := by
  apply List.ext_get
  · rw [specifyRaw_length, List.length_map, List.length_range]
  · intro i h1 h2
    have hi : i < (gls.map (fun _ => ([] : List Couplet))).length := by
      rw [List.length_map]
      rw [specifyRaw_length] at h1
      exact h1
    unfold specifyRaw
    rw [fold_place_get gls (remaining_couplets board) _ (by rw [List.length_map]) i hi]
    have hinit : (gls.map (fun _ => ([] : List Couplet))).get ⟨i, hi⟩ = [] := by
      simp
    rw [hinit, List.nil_append]
    have hlt : i < gls.length := by simpa using hi
    simp [hlt]

theorem mem_specifyRaw_iff (gls : List (List Couplet)) (board : List Card)
    (c : Couplet) (i : Nat) (hi : i < (specifyRaw gls board).length) :
    c ∈ (specifyRaw gls board).get ⟨i, hi⟩ ↔
      c ∈ remaining_couplets board ∧ index_of_level_containing c gls = some i := by
  have hi2 : i < ((List.range gls.length).map
      (fun i => (remaining_couplets board).filter
        (fun c => decide (index_of_level_containing c gls = some i)))).length := by
    rw [← specifyRaw_eq]; exact hi
  rw [List.get_of_eq (specifyRaw_eq gls board)]
  have hget : ((List.range gls.length).map
      (fun i => (remaining_couplets board).filter
        (fun c => decide (index_of_level_containing c gls = some i)))).get ⟨i, hi2⟩ =
      (remaining_couplets board).filter
        (fun c => decide (index_of_level_containing c gls = some i)) := by
    have hlt : i < gls.length := by simp at hi2; exact hi2
    simp
  rw [hget, List.mem_filter]
  simp

-- ## The flattened resolved ladder is a permutation of all remaining couplets

theorem flatten_place_perm (c : Couplet) (gls : List (List Couplet)) :
    ∀ (sls : List (List Couplet)), sls.length = gls.length →
    (∃ g ∈ gls, g.any (fun p => c.fulfills p)) →
    List.Perm (place_couplet c gls sls).flatten (c :: sls.flatten) := by
  induction gls with
  | nil =>
    intro sls hlen hex
    simp at hex
  | cons g gs ih =>
    intro sls hlen hex
    cases sls with
    | nil => simp at hlen
    | cons s ss =>
      have hlen' : ss.length = gs.length := by simpa using hlen
      by_cases h : g.any (fun p => c.fulfills p)
      · have hplace : place_couplet c (g :: gs) (s :: ss) = (s ++ [c]) :: ss := by
          simp [place_couplet, h]
        rw [hplace]
        show List.Perm ((s ++ [c]) ++ ss.flatten) (c :: (s ++ ss.flatten))
        rw [List.append_assoc, List.singleton_append]
        exact List.perm_middle
      · have hplace : place_couplet c (g :: gs) (s :: ss) = s :: place_couplet c gs ss := by
          simp [place_couplet, h]
        have hex' : ∃ g' ∈ gs, g'.any (fun p => c.fulfills p) := by
          obtain ⟨g', hg', hany⟩ := hex
          rw [List.mem_cons] at hg'
          rcases hg' with rfl | hg'
          · exact absurd hany h
          · exact ⟨g', hg', hany⟩
        rw [hplace]
        show List.Perm (s ++ (place_couplet c gs ss).flatten) (c :: (s ++ ss.flatten))
        exact (List.Perm.append_left s (ih ss hlen' hex')).trans List.perm_middle

theorem flatten_fold_perm (gls : List (List Couplet)) :
    ∀ (cs : List Couplet) (init : List (List Couplet)), init.length = gls.length →
    (∀ c ∈ cs, ∃ g ∈ gls, g.any (fun p => c.fulfills p)) →
    List.Perm ((cs.foldl (fun s c => place_couplet c gls s) init).flatten)
      (init.flatten ++ cs) := by
  intro cs
  induction cs with
  | nil =>
    intro init hlen hall
    simp
  | cons c cs ih =>
    intro init hlen hall
    have h1 := ih (place_couplet c gls init) (by rw [place_couplet_length]; exact hlen)
      (fun c' hc' => hall c' (List.mem_cons_of_mem c hc'))
    have h2 : List.Perm (place_couplet c gls init).flatten (c :: init.flatten) :=
      flatten_place_perm c gls init hlen (hall c (List.mem_cons_self c cs))
    have h3 : List.Perm ((place_couplet c gls init).flatten ++ cs)
        ((c :: init.flatten) ++ cs) := h2.append_right cs
    have h4 : List.Perm (c :: (init.flatten ++ cs)) (init.flatten ++ (c :: cs)) :=
      List.perm_middle.symm
    show List.Perm
      ((cs.foldl (fun s c => place_couplet c gls s) (place_couplet c gls init)).flatten)
      (init.flatten ++ (c :: cs))
    exact (h1.trans h3).trans h4

theorem flatten_map_nil (gls : List (List Couplet)) :
    (gls.map (fun _ => ([] : List Couplet))).flatten = [] := by
  induction gls with
  | nil => rfl
  | cons g gs ih => simp [ih]

theorem flatten_specifyRaw_perm (gls : List (List Couplet)) (board : List Card)
    (h : ∀ c ∈ remaining_couplets board, ∃ g ∈ gls, g.any (fun p => c.fulfills p)) :
    List.Perm (specifyRaw gls board).flatten (remaining_couplets board) := by
  unfold specifyRaw
  have := flatten_fold_perm gls (remaining_couplets board)
    (gls.map (fun _ => ([] : List Couplet))) (by rw [List.length_map]) h
  rwa [flatten_map_nil, List.nil_append] at this

theorem flatten_remove_empty (levels : List (List Couplet)) :
    (remove_empty_levels levels).flatten = levels.flatten := by
  induction levels with
  | nil => rfl
  | cons l ls ih =>
    by_cases h : l.length > 0
    · simp only [remove_empty_levels] at *
      rw [List.filter_cons_of_pos (by simpa using h)]
      simp [ih]
    · have : l = [] := by
        cases l with
        | nil => rfl
        | cons x xs => simp at h
      subst this
      simp only [remove_empty_levels] at *
      rw [List.filter_cons_of_neg (by simp)]
      simp [ih]

-- ## The catch-all terminal level

theorem couplet_fulfills_catch_all (c : Couplet) : c.fulfills catch_all = true := by
  simp [Couplet.fulfills, Card.fulfills, catch_all, anything]

theorem catch_all_mem_all_levels (board : List Card) :
    [catch_all] ∈ all_levels board := by
  simp [all_levels]

theorem exists_fulfilling_level (board : List Card) (c : Couplet) :
    ∃ g ∈ all_levels board, g.any (fun p => c.fulfills p) := by
  refine ⟨[catch_all], catch_all_mem_all_levels board, ?_⟩
  simp [couplet_fulfills_catch_all]

theorem index_all_levels_isSome (board : List Card) (c : Couplet) :
    ∃ i, index_of_level_containing c (all_levels board) = some i ∧
      i < (all_levels board).length := by
  obtain ⟨i, hi⟩ := find_index_isSome_of_exists (exists_fulfilling_level board c)
  exact ⟨i, hi, find_index_lt_length hi⟩
-- ## Exactly-once counting for the resolved ladder

theorem specify_levels_nonempty (gls : List (List Couplet)) (board : List Card) :
    ∀ lvl ∈ specify gls board, lvl ≠ [] := by
  intro lvl hlvl
  unfold specify remove_empty_levels at hlvl
  obtain ⟨-, hlen⟩ := List.mem_filter.mp hlvl
  intro hnil
  subst hnil
  simp at hlen

theorem mem_specify_of_mem_remaining (gls : List (List Couplet)) (board : List Card)
    (c : Couplet) (hc : c ∈ remaining_couplets board)
    (hidx : ∃ i, index_of_level_containing c gls = some i ∧ i < gls.length) :
    ∃ lvl ∈ specify gls board, c ∈ lvl := by
  obtain ⟨i, hi, hilt⟩ := hidx
  have hilt' : i < (specifyRaw gls board).length := by rw [specifyRaw_length]; exact hilt
  have hmem : c ∈ (specifyRaw gls board).get ⟨i, hilt'⟩ :=
    (mem_specifyRaw_iff gls board c i hilt').mpr ⟨hc, hi⟩
  refine ⟨(specifyRaw gls board).get ⟨i, hilt'⟩, ?_, hmem⟩
  unfold specify remove_empty_levels
  apply List.mem_filter.mpr
  refine ⟨List.get_mem _ _ _, ?_⟩
  simp only [gt_iff_lt, decide_eq_true_eq]
  exact List.length_pos_of_mem hmem

theorem countP_range_eq_one {n i0 : Nat} (h : i0 < n) :
    (List.range n).countP (fun i => decide (i0 = i)) = 1 := by
  have hcongr : (List.range n).countP (fun i => decide (i0 = i)) =
      (List.range n).countP (fun i => i == i0) := by
    apply List.countP_congr
    intro i _
    simp only [decide_eq_true_eq, beq_iff_eq]
    exact eq_comm
  rw [hcongr]
  have : (List.range n).countP (fun i => i == i0) = (List.range n).count i0 := rfl
  rw [this]
  exact List.count_eq_one_of_mem (List.nodup_range n) (List.mem_range.mpr h)

theorem countP_specify_eq_one (board : List Card) (c : Couplet)
    (hc : c ∈ remaining_couplets board) :
    (specify (all_levels board) board).countP (fun lvl => decide (c ∈ lvl)) = 1 := by
  obtain ⟨i0, hi0, hi0lt⟩ := index_all_levels_isSome board c
  set gls := all_levels board with hgls
  -- dropping the empty levels does not change the count, since any level
  -- containing the couplet is nonempty
  have h1 : (specify gls board).countP (fun lvl => decide (c ∈ lvl)) =
      (specifyRaw gls board).countP (fun lvl => decide (c ∈ lvl)) := by
    unfold specify remove_empty_levels
    rw [List.countP_filter]
    apply List.countP_congr
    intro lvl _
    by_cases hmem : c ∈ lvl
    · have : 0 < lvl.length := List.length_pos_of_mem hmem
      simp [hmem, this]
    · simp [hmem]
  rw [h1, specifyRaw_eq, List.countP_map]
  have h2 : ((List.range gls.length).countP
      ((fun lvl => decide (c ∈ lvl)) ∘
        (fun i => (remaining_couplets board).filter
          (fun c => decide (index_of_level_containing c gls = some i))))) =
      (List.range gls.length).countP (fun i => decide (i0 = i)) := by
    apply List.countP_congr
    intro i _
    simp only [Function.comp, decide_eq_true_eq, List.mem_filter, hc, true_and, hi0]
    simp
  rw [h2]
  exact countP_range_eq_one hi0lt

-- ## The deck and real cards

theorem mem_rangeInt {a b r : Int} : r ∈ rangeInt a b ↔ a ≤ r ∧ r < b := by
  unfold rangeInt
  constructor
  · intro h
    obtain ⟨i, hi, rfl⟩ := List.mem_map.mp h
    rw [List.mem_range] at hi
    omega
  · intro h
    apply List.mem_map.mpr
    refine ⟨(r - a).toNat, List.mem_range.mpr (by omega), by omega⟩

theorem mem_rank_range {r : Int} : r ∈ rank_range ↔ 0 ≤ r ∧ r < (num_ranks : Int) := by
  unfold rank_range
  rw [List.mem_reverse, mem_rangeInt]

theorem mem_suit_range {s : Int} : s ∈ suit_range ↔ 0 ≤ s ∧ s < (num_suits : Int) := by
  unfold suit_range
  rw [List.mem_reverse, mem_rangeInt]

theorem mem_assemble_deck {c : Card} : c ∈ assemble_deck ↔ real_card c := by
  unfold assemble_deck real_card
  rw [List.mem_flatten]
  constructor
  · rintro ⟨l, hl, hc⟩
    obtain ⟨r, hr, rfl⟩ := List.mem_map.mp hl
    obtain ⟨s, hs, rfl⟩ := List.mem_map.mp hc
    obtain ⟨hr1, hr2⟩ := mem_rank_range.mp hr
    obtain ⟨hs1, hs2⟩ := mem_suit_range.mp hs
    exact ⟨hr1, hr2, hs1, hs2⟩
  · rintro ⟨h1, h2, h3, h4⟩
    refine ⟨suit_range.map (fun suit => Card.mk c.rank suit), ?_, ?_⟩
    · exact List.mem_map_of_mem _ (mem_rank_range.mpr ⟨h1, h2⟩)
    · exact List.mem_map.mpr ⟨c.suit, mem_suit_range.mpr ⟨h3, h4⟩, rfl⟩

theorem nodup_assemble_deck : assemble_deck.Nodup := by decide

theorem length_assemble_deck : assemble_deck.length = 52 := by decide

theorem is_copy_iff {c d : Card} : c.is_copy d = true ↔ c = d := by
  unfold Card.is_copy
  cases c; cases d
  simp [Card.mk.injEq]

theorem is_compatible_iff {c : Card} {l : List Card} :
    c.is_compatible l = true ↔ c ∉ l := by
  unfold Card.is_compatible
  rw [List.all_eq_true]
  constructor
  · intro h hc
    have h2 := h c hc
    rw [is_copy_iff.mpr rfl] at h2
    simp at h2
  · intro h t ht
    simp only [Bool.not_eq_true']
    rw [Bool.eq_false_iff]
    intro hcopy
    exact h (is_copy_iff.mp hcopy ▸ ht)

theorem mem_remaining_deck {c : Card} {board : List Card} :
    c ∈ remaining_deck board ↔ real_card c ∧ c ∉ board := by
  unfold remaining_deck
  rw [List.mem_filter, mem_assemble_deck, is_compatible_iff]

theorem nodup_remaining_deck (board : List Card) : (remaining_deck board).Nodup :=
  nodup_assemble_deck.filter _

-- ## Locating a two-card subset of a nodup list among its couplets

theorem pair_sublist_of_mem {a b : α} {l : List α} (ha : a ∈ l) (hb : b ∈ l)
    (hne : a ≠ b) : [a, b].Sublist l ∨ [b, a].Sublist l := by
  induction l with
  | nil => simp at ha
  | cons x xs ih =>
    rw [List.mem_cons] at ha hb
    rcases ha with rfl | ha
    · rcases hb with rfl | hb
      · exact absurd rfl hne
      · exact Or.inl (List.Sublist.cons₂ a (List.singleton_sublist.mpr hb))
    · rcases hb with rfl | hb
      · exact Or.inr (List.Sublist.cons₂ b (List.singleton_sublist.mpr ha))
      · rcases ih ha hb with h | h
        · exact Or.inl (h.cons x)
        · exact Or.inr (h.cons x)

theorem card_fulfills_self (a : Card) : a.fulfills a = true := by
  simp [Card.fulfills]

theorem couplet_fulfills_self_or_swap {a b : Card} (k : Couplet)
    (hk : k = Couplet.mk a b ∨ k = Couplet.mk b a) :
    (Couplet.mk a b).fulfills k = true := by
  rcases hk with rfl | rfl <;>
    simp [Couplet.fulfills, card_fulfills_self]

theorem couplet_of_pair_mem_remaining {a b : Card} {board : List Card}
    (ha : a ∈ remaining_deck board) (hb : b ∈ remaining_deck board) (hne : a ≠ b) :
    ∃ k ∈ remaining_couplets board, k = Couplet.mk a b ∨ k = Couplet.mk b a := by
  rcases pair_sublist_of_mem ha hb hne with h | h
  · exact ⟨Couplet.mk a b,
      List.mem_map.mpr ⟨[a, b], mem_subsets_of_size.mpr ⟨h, rfl⟩, rfl⟩, Or.inl rfl⟩
  · exact ⟨Couplet.mk b a,
      List.mem_map.mpr ⟨[b, a], mem_subsets_of_size.mpr ⟨h, rfl⟩, rfl⟩, Or.inr rfl⟩

/-- Every two-card sub-couplet of a well-formed holding is located somewhere in
the concrete ladder: `index_of_level_containing` finds a level for it. -/
theorem holding_couplet_found (holding board : List Card)
    (hnodup : holding.Nodup) (hreal : ∀ a ∈ holding, real_card a)
    (hdisj : ∀ a ∈ holding, a ∉ board) :
    ∀ c ∈ holding_couplets holding,
      ∃ i, index_of_level_containing c (specify (all_levels board) board) = some i ∧
        i < (specify (all_levels board) board).length := by
  intro c hc
  obtain ⟨sub, hsub, rfl⟩ := List.mem_map.mp hc
  obtain ⟨hsublist, hlen⟩ := mem_subsets_of_size.mp hsub
  obtain ⟨a, b, rfl⟩ : ∃ a b, sub = [a, b] := by
    cases sub with
    | nil => simp at hlen
    | cons x xs =>
      cases xs with
      | nil => simp at hlen
      | cons y ys =>
        cases ys with
        | nil => exact ⟨x, y, rfl⟩
        | cons z zs => simp at hlen
  have ha : a ∈ holding := hsublist.subset (by simp)
  have hb : b ∈ holding := hsublist.subset (by simp)
  have hne : a ≠ b := by
    have := hnodup.sublist hsublist
    simp at this
    exact this
  have ha' : a ∈ remaining_deck board := mem_remaining_deck.mpr ⟨hreal a ha, hdisj a ha⟩
  have hb' : b ∈ remaining_deck board := mem_remaining_deck.mpr ⟨hreal b hb, hdisj b hb⟩
  obtain ⟨k, hkmem, hk⟩ := couplet_of_pair_mem_remaining ha' hb' hne
  obtain ⟨lvl, hlvl, hklvl⟩ := mem_specify_of_mem_remaining (all_levels board) board k hkmem
    (by
      obtain ⟨i, hi, hilt⟩ := index_all_levels_isSome board k
      exact ⟨i, hi, hilt⟩)
  have hfulfills : (couplify [a, b]).fulfills k = true := by
    have : couplify [a, b] = Couplet.mk a b := rfl
    rw [this]
    exact couplet_fulfills_self_or_swap k hk
  obtain ⟨i, hi⟩ := find_index_isSome_of_exists
    (p := fun level => level.any (fun couplet => (couplify [a, b]).fulfills couplet))
    ⟨lvl, hlvl, List.any_eq_true.mpr ⟨k, hklvl, hfulfills⟩⟩
  exact ⟨i, hi, find_index_lt_length hi⟩

-- # Claim theorems

/-- C1: For every board, the concrete ladder produced by
`specify(all_levels(board), board)` partitions the set of all unordered
two-card combinations drawn from the deck minus the board: every level in the
output is non-empty, every remaining couplet is contained in exactly one level
of the output, and (before empty levels are dropped) a couplet ends up in
level `i` exactly when `i` is the index of the first (strongest) generic level
whose any pattern it fulfills. -/
theorem C1_specify_partitions (board : List Card) :
    (∀ lvl ∈ specify (all_levels board) board, lvl ≠ []) ∧
    (∀ c ∈ remaining_couplets board,
      (specify (all_levels board) board).countP (fun lvl => decide (c ∈ lvl)) = 1) ∧
    (∀ c ∈ remaining_couplets board, ∀ (i : Nat)
      (hi : i < (specifyRaw (all_levels board) board).length),
        (c ∈ (specifyRaw (all_levels board) board).get ⟨i, hi⟩ ↔
          index_of_level_containing c (all_levels board) = some i)) := by
  refine ⟨specify_levels_nonempty _ _, fun c hc => countP_specify_eq_one board c hc, ?_⟩
  intro c hc i hi
  rw [mem_specifyRaw_iff]
  exact ⟨fun h => h.2, fun h => ⟨hc, h⟩⟩

/-- Witness for C1 at the empty board and the first remaining couplet. -/
theorem C1_specify_partitions_witness :
    (Couplet.mk (Card.mk 12 3) (Card.mk 12 2)) ∈ remaining_couplets [] ∧
    (specify (all_levels []) []).countP
      (fun lvl => decide ((Couplet.mk (Card.mk 12 3) (Card.mk 12 2)) ∈ lvl)) = 1 :=
  ⟨by decide, (C1_specify_partitions []).2.1 _ (by decide)⟩

/-- C5: `Couplet(c1,c2).fulfills(Couplet(p1,p2))` is unchanged when `c1,c2`
are swapped, when `p1,p2` are swapped, and when both pairs are swapped. -/
theorem C5_wildcard_symmetry (c1 c2 p1 p2 : Card) :
    (Couplet.mk c1 c2).fulfills (Couplet.mk p1 p2) =
        (Couplet.mk c2 c1).fulfills (Couplet.mk p1 p2) ∧
    (Couplet.mk c1 c2).fulfills (Couplet.mk p1 p2) =
        (Couplet.mk c1 c2).fulfills (Couplet.mk p2 p1) ∧
    (Couplet.mk c1 c2).fulfills (Couplet.mk p1 p2) =
        (Couplet.mk c2 c1).fulfills (Couplet.mk p2 p1) := by
  unfold Couplet.fulfills
  simp only
  refine ⟨?_, ?_, ?_⟩ <;>
    (cases c1.fulfills p1 <;> cases c1.fulfills p2 <;>
       cases c2.fulfills p1 <;> cases c2.fulfills p2 <;> rfl)

/-- Counterexample to C6: the any-any wildcard card does NOT fulfill the
concrete card (deuce of clubs); only the converse direction holds. -/
theorem C6_counterexample :
    ¬ ((Card.mk 0 0).fulfills (Card.mk anything anything) = true ∧
       (Card.mk anything anything).fulfills (Card.mk 0 0) = true) := by
  decide

/-- C6 (amended): every card fulfills the any-any wildcard card, but the
any-any wildcard card fulfills only cards whose rank and suit are both the
wildcard value (in particular it fulfills itself, not every card). -/
theorem C6_amended (c : Card) :
    c.fulfills (Card.mk anything anything) = true ∧
    ((Card.mk anything anything).fulfills c = true ↔
      c.rank = anything ∧ c.suit = anything) := by
  constructor
  · simp [Card.fulfills]
  · simp only [Card.fulfills, Bool.and_eq_true, Bool.or_eq_true, beq_iff_eq]
    constructor
    · rintro ⟨h1 | h1, h2 | h2⟩ <;> exact ⟨by omega, by omega⟩
    · rintro ⟨h1, h2⟩
      exact ⟨Or.inl h1, Or.inl h2⟩

/-- C9: the two public entry points are deterministic: on equal inputs the
board-only ranking query returns identical concrete ladders, and the equity
query returns identical results (the embedded entry points consume nothing
but their arguments and the fixed module parameters; the random sampling in
the source lives only in the excluded trial driver). -/
theorem C9_deterministic (board1 board2 holding1 holding2 : List Card)
    (hb : board1 = board2) (hh : holding1 = holding2) :
    rank_ladder board1 = rank_ladder board2 ∧
    utility holding1 board1 = utility holding2 board2 := by
  subst hb
  subst hh
  exact ⟨rfl, rfl⟩

/-- Witness for C9 at a concrete board and holding. -/
theorem C9_deterministic_witness :
    ([(⟨8, 3⟩ : Card), ⟨7, 2⟩] : List Card) = [⟨8, 3⟩, ⟨7, 2⟩] ∧
    rank_ladder [⟨8, 3⟩, ⟨7, 2⟩] = rank_ladder [⟨8, 3⟩, ⟨7, 2⟩] ∧
    utility [⟨12, 3⟩, ⟨11, 3⟩] [⟨8, 3⟩, ⟨7, 2⟩] =
      utility [⟨12, 3⟩, ⟨11, 3⟩] [⟨8, 3⟩, ⟨7, 2⟩] := by
  refine ⟨rfl, ?_⟩
  exact C9_deterministic [⟨8, 3⟩, ⟨7, 2⟩] [⟨8, 3⟩, ⟨7, 2⟩]
    [⟨12, 3⟩, ⟨11, 3⟩] [⟨12, 3⟩, ⟨11, 3⟩] rfl rfl

/-- C10: for every board and every duplicate-free holding of real cards
disjoint from the board, `index_of_level_containing` applied to any two-card
sub-couplet of the holding and the concrete ladder returns a valid level
index, never `None` (so the `None` branch and the comparison with
`best_level_index` inside `utility` are always well-defined). -/
theorem C10_holding_couplet_indexed (holding board : List Card)
    (hnodup : holding.Nodup) (hreal : ∀ a ∈ holding, real_card a)
    (hdisj : ∀ a ∈ holding, a ∉ board) :
    ∀ c ∈ holding_couplets holding,
      ∃ i, index_of_level_containing c (specify (all_levels board) board) = some i ∧
        i < (specify (all_levels board) board).length :=
  holding_couplet_found holding board hnodup hreal hdisj

/-- Witness for C10 at a concrete holding and board. -/
theorem C10_holding_couplet_indexed_witness :
    ([(⟨12, 3⟩ : Card), ⟨11, 3⟩, ⟨10, 3⟩, ⟨9, 3⟩] : List Card).Nodup ∧
    (couplify [⟨12, 3⟩, ⟨11, 3⟩]) ∈
      holding_couplets [⟨12, 3⟩, ⟨11, 3⟩, ⟨10, 3⟩, ⟨9, 3⟩] ∧
    ∃ i, index_of_level_containing (couplify [⟨12, 3⟩, ⟨11, 3⟩])
        (specify (all_levels [⟨0, 0⟩]) [⟨0, 0⟩]) = some i ∧
      i < (specify (all_levels [⟨0, 0⟩]) [⟨0, 0⟩]).length :=
  ⟨by decide, by decide,
    C10_holding_couplet_indexed [⟨12, 3⟩, ⟨11, 3⟩, ⟨10, 3⟩, ⟨9, 3⟩] [⟨0, 0⟩]
      (by decide) (by decide) (by decide) _ (by decide)⟩

-- ## C7 helpers: the max-tally fold and first-match search on a descending list

theorem max_tally_fold_cases (t : Int → Nat) :
    ∀ (l : List Int) (acc : Nat),
      l.foldl (fun m r => if t r > m then t r else m) acc = acc ∨
        ∃ r ∈ l, l.foldl (fun m r => if t r > m then t r else m) acc = t r := by
  intro l
  induction l with
  | nil => intro acc; exact Or.inl rfl
  | cons r rest ih =>
    intro acc
    rw [List.foldl_cons]
    by_cases h : t r > acc
    · rw [if_pos h]
      rcases ih (t r) with heq | ⟨r', hr', heq⟩
      · exact Or.inr ⟨r, List.mem_cons_self r rest, heq⟩
      · exact Or.inr ⟨r', List.mem_cons_of_mem r hr', heq⟩
    · rw [if_neg h]
      rcases ih acc with heq | ⟨r', hr', heq⟩
      · exact Or.inl heq
      · exact Or.inr ⟨r', List.mem_cons_of_mem r hr', heq⟩

theorem max_tally_exists_of_ge_two (t : Int → Nat) (h : 2 ≤ max_tally t) :
    ∃ r ∈ rank_range, 2 ≤ t r := by
  unfold max_tally at h
  rcases max_tally_fold_cases t rank_range 0 with heq | ⟨r, hr, heq⟩
  · rw [heq] at h
    omega
  · exact ⟨r, hr, by rw [← heq]; exact h⟩

theorem find_desc_is_max {t : Int → Nat} :
    ∀ {l : List Int}, l.Pairwise (fun a b => a > b) →
    ∀ {r : Int}, l.find? (fun x => t x > 1) = some r →
    ∀ x ∈ l, 2 ≤ t x → x ≤ r := by
  intro l
  induction l with
  | nil => intro _ r h; simp at h
  | cons y ys ih =>
    intro hsort r hfind x hx htx
    rw [List.mem_cons] at hx
    by_cases hp : t y > 1
    · rw [List.find?_cons_of_pos _ (by simpa using hp), Option.some_inj] at hfind
      subst hfind
      rcases hx with rfl | hx
      · exact le_refl x
      · have := (List.pairwise_cons.mp hsort).1 x hx
        omega
    · rw [List.find?_cons_of_neg _ (by simpa using hp)] at hfind
      rcases hx with rfl | hx
      · omega
      · exact ih (List.pairwise_cons.mp hsort).2 hfind x hx htx

theorem rank_range_sorted_desc : rank_range.Pairwise (fun a b => a > b) := by
  decide

/-- C7: for every rank-tally mapping whose maximum tally is at least 2,
`highest_repeated_rank` returns the highest rank (among the ranks of
`rank_range`, the tally dictionary's keys) whose count is at least 2; when
every tally is below 2 it returns `None`. -/
theorem C7_highest_repeated_rank (t : Int → Nat) :
    (2 ≤ max_tally t →
      ∃ r, highest_repeated_rank t = some r ∧ 2 ≤ t r ∧
        ∀ x ∈ rank_range, 2 ≤ t x → x ≤ r) ∧
    ((∀ x ∈ rank_range, t x < 2) → highest_repeated_rank t = none) := by
  constructor
  · intro hmax
    obtain ⟨r0, hr0, ht0⟩ := max_tally_exists_of_ge_two t hmax
    have hsome : (rank_range.find? (fun x => t x > 1)).isSome := by
      rw [List.find?_isSome]
      exact ⟨r0, hr0, by simp; omega⟩
    obtain ⟨r, hr⟩ := Option.isSome_iff_exists.mp hsome
    refine ⟨r, hr, ?_, find_desc_is_max rank_range_sorted_desc hr⟩
    have := List.find?_some hr
    simp at this
    omega
  · intro hall
    apply List.find?_eq_none.mpr
    intro x hx
    have := hall x hx
    simp
    omega

/-- Witness for C7 at a concrete tally mapping (two sixes on the board). -/
theorem C7_highest_repeated_rank_witness :
    2 ≤ max_tally (fun r => if r = 4 then 2 else 0) ∧
    (∃ r, highest_repeated_rank (fun r => if r = 4 then 2 else 0) = some r ∧
      2 ≤ (if r = (4 : Int) then 2 else 0) ∧
      ∀ x ∈ rank_range, 2 ≤ (if x = (4 : Int) then 2 else 0) → x ≤ r) :=
  ⟨by decide, (C7_highest_repeated_rank (fun r => if r = 4 then 2 else 0)).1 (by decide)⟩

-- ## C8 helpers

theorem headD_suit_of_filter {board : List Card} {s : Int}
    (h : 3 ≤ (board.filter (fun c => c.suit == s)).length) :
    ((board.filter (fun c => c.suit == s)).headD (Card.mk 0 0)).suit = s := by
  cases hfilter : board.filter (fun c => c.suit == s) with
  | nil => rw [hfilter] at h; simp at h
  | cons x xs =>
    have hx : x ∈ board.filter (fun c => c.suit == s) := by
      rw [hfilter]; exact List.mem_cons_self x xs
    have := (List.mem_filter.mp hx).2
    simp only [List.headD_cons]
    exact beq_iff_eq.mp this

theorem extract_ranks_false (board : List Card) :
    extract_ranks board false = board.map (fun card => card.rank) := by
  simp [extract_ranks]

/-- C8: `flush_levels` agrees with the spec's description: for each suit with
at least 3 board cards of that suit, exactly one level per rank at least
`three` absent from that suit's board cards, in descending rank order, each
level the single pattern "that rank suited plus anything suited"; nothing for
suits with fewer than 3 board cards. -/
theorem C8_flush_levels (board : List Card) :
    flush_levels board = flush_levels_spec board := by
  unfold flush_levels flush_levels_spec partition_by_suit
  rw [List.map_map]
  congr 1
  apply List.map_congr_left
  intro s _
  simp only [Function.comp]
  by_cases h : 3 ≤ (board.filter (fun c => c.suit == s)).length
  · rw [if_pos (by omega : (board.filter (fun c => c.suit == s)).length ≥ 3), if_pos h]
    rw [headD_suit_of_filter h, extract_ranks_false]
  · rw [if_neg (by omega : ¬ (board.filter (fun c => c.suit == s)).length ≥ 3), if_neg h]

-- ## Counting the remaining compatible couplets

theorem length_filter_pos_neg (p : α → Bool) (l : List α) :
    (l.filter p).length + (l.filter (fun a => !p a)).length = l.length := by
  induction l with
  | nil => rfl
  | cons x xs ih =>
    by_cases h : p x
    · rw [List.filter_cons_of_pos h, List.filter_cons_of_neg (by simp [h])]
      simp only [List.length_cons]
      omega
    · rw [List.filter_cons_of_neg h, List.filter_cons_of_pos (by simp [h])]
      simp only [List.length_cons]
      omega

theorem length_filter_mem {l S : List α} [DecidableEq α] (hl : l.Nodup) (hS : S.Nodup)
    (hsub : ∀ x ∈ S, x ∈ l) :
    (l.filter (fun c => decide (c ∈ S))).length = S.length := by
  apply Nat.le_antisymm
  · refine (List.subperm_of_subset (hl.filter _) ?_).length_le
    intro x hx
    have := (List.mem_filter.mp hx).2
    simpa using this
  · refine (List.subperm_of_subset hS ?_).length_le
    intro x hx
    exact List.mem_filter.mpr ⟨hsub x hx, by simpa using hx⟩

theorem length_filter_not_mem {l S : List α} [DecidableEq α] (hl : l.Nodup) (hS : S.Nodup)
    (hsub : ∀ x ∈ S, x ∈ l) :
    (l.filter (fun c => decide (c ∉ S))).length = l.length - S.length := by
  have h1 := length_filter_mem hl hS hsub
  have h2 := length_filter_pos_neg (fun c => decide (c ∈ S)) l
  have h3 : l.filter (fun c => decide (c ∉ S)) =
      l.filter (fun c => !(decide (c ∈ S))) := by
    apply List.filter_congr
    intro x _
    simp
  rw [h3]
  omega

theorem is_compatible_eq_decide (c : Card) (S : List Card) :
    c.is_compatible S = decide (c ∉ S) := by
  rw [Bool.eq_iff_iff]
  rw [is_compatible_iff]
  simp

theorem length_remaining_deck (board : List Card) (hnodup : board.Nodup)
    (hreal : ∀ c ∈ board, real_card c) :
    (remaining_deck board).length = 52 - board.length := by
  unfold remaining_deck
  have hcongr : assemble_deck.filter (fun card => card.is_compatible board) =
      assemble_deck.filter (fun card => decide (card ∉ board)) := by
    apply List.filter_congr
    intro x _
    exact is_compatible_eq_decide x board
  rw [hcongr, length_filter_not_mem nodup_assemble_deck hnodup
    (fun x hx => mem_assemble_deck.mpr (hreal x hx)), length_assemble_deck]

theorem length_compat_remaining_deck (holding board : List Card)
    (hnodup : holding.Nodup) (hreal : ∀ c ∈ holding, real_card c)
    (hdisj : ∀ c ∈ holding, c ∉ board) :
    ((remaining_deck board).filter (fun c => c.is_compatible holding)).length =
      (remaining_deck board).length - holding.length := by
  have hcongr : (remaining_deck board).filter (fun c => c.is_compatible holding) =
      (remaining_deck board).filter (fun c => decide (c ∉ holding)) := by
    apply List.filter_congr
    intro x _
    exact is_compatible_eq_decide x holding
  rw [hcongr]
  exact length_filter_not_mem (nodup_remaining_deck board) hnodup
    (fun x hx => mem_remaining_deck.mpr ⟨hreal x hx, hdisj x hx⟩)

/-- The number of remaining couplets compatible with the holding is the number
of ways to choose 2 cards from the remaining deck avoiding the holding. -/
theorem total_remaining_compatible_eq_choose (holding board : List Card) :
    total_remaining_compatible holding board =
      Nat.choose (((remaining_deck board).filter
        (fun c => c.is_compatible holding)).length) 2 := by
  unfold total_remaining_compatible remaining_couplets
  rw [List.filter_map, List.length_map]
  have hcongr : (subsets_of_size 2 (remaining_deck board)).filter
      ((fun c => c.is_compatible holding) ∘ couplify) =
      (subsets_of_size 2 (remaining_deck board)).filter
        (fun s => s.all (fun c => c.is_compatible holding)) := by
    apply List.filter_congr
    intro s hs
    obtain ⟨hsub, hlen⟩ := mem_subsets_of_size.mp hs
    obtain ⟨a, b, rfl⟩ : ∃ a b, s = [a, b] := by
      cases s with
      | nil => simp at hlen
      | cons x xs =>
        cases xs with
        | nil => simp at hlen
        | cons y ys =>
          cases ys with
          | nil => exact ⟨x, y, rfl⟩
          | cons z zs => simp at hlen
    simp [Function.comp, couplify, Couplet.is_compatible]
  rw [hcongr, ← subsets_of_size_filter, length_subsets_of_size]

theorem total_remaining_compatible_valid (holding board : List Card)
    (hb : valid_board board) (hh : valid_holding holding board) :
    total_remaining_compatible holding board = Nat.choose 43 2 := by
  obtain ⟨hblen, hbnodup, hbreal⟩ := hb
  obtain ⟨hhlen, hhnodup, hhreal, hhdisj⟩ := hh
  rw [total_remaining_compatible_eq_choose,
    length_compat_remaining_deck holding board hhnodup hhreal hhdisj,
    length_remaining_deck board hbnodup hbreal, hblen, hhlen]
  rfl

/-- Splitting any ladder whose flattening is a permutation of a couplet list
at an index, the compatible couplets in the three parts together count every
compatible couplet of that list exactly once. -/
theorem counts_split_general (holding : List Card) (L : List (List Couplet))
    (cs : List Couplet) (hperm : List.Perm L.flatten cs) (b : Nat)
    (hb : b < L.length) :
    (remove_incompatible_couplets (flatten (L.take b)) holding).length +
      (remove_incompatible_couplets (L.get ⟨b, hb⟩) holding).length +
      (remove_incompatible_couplets (flatten (L.drop (b + 1))) holding).length =
      (cs.filter (fun c => c.is_compatible holding)).length := by
  have hsplit : L = L.take b ++ L.get ⟨b, hb⟩ :: L.drop (b + 1) := by
    conv_lhs => rw [← List.take_append_drop b L]
    congr 1
    rw [List.get_eq_getElem]
    exact List.drop_eq_getElem_cons hb
  have hflat : L.flatten =
      (L.take b).flatten ++ (L.get ⟨b, hb⟩ ++ (L.drop (b + 1)).flatten) := by
    conv_lhs => rw [hsplit]
    rw [List.flatten_append, List.flatten_cons]
  have hlen := (hperm.filter (fun c => c.is_compatible holding)).length_eq
  rw [hflat, List.filter_append, List.filter_append, List.length_append,
    List.length_append] at hlen
  unfold remove_incompatible_couplets flatten
  omega

/-- Splitting the concrete ladder at the best level index, the compatible
couplets in the stronger levels, the best level, and the weaker levels
together count every remaining compatible couplet exactly once. -/
theorem counts_sum (holding board : List Card) (b : Nat)
    (hb : b < (specify (all_levels board) board).length) :
    (remove_incompatible_couplets
        (flatten ((specify (all_levels board) board).take b)) holding).length +
      (remove_incompatible_couplets
        ((specify (all_levels board) board).get ⟨b, hb⟩) holding).length +
      (remove_incompatible_couplets
        (flatten ((specify (all_levels board) board).drop (b + 1))) holding).length =
      total_remaining_compatible holding board := by
  apply counts_split_general
  unfold specify
  rw [flatten_remove_empty]
  exact flatten_specifyRaw_perm (all_levels board) board
    (fun c _ => exists_fulfilling_level board c)

-- ## The best-level-index fold succeeds on well-formed holdings

theorem best_fold_ok (levels : List (List Couplet)) :
    ∀ (cs : List Couplet) (b0 : Nat),
      (∀ c ∈ cs, ∃ i, index_of_level_containing c levels = some i ∧ i < levels.length) →
      ∃ b, cs.foldlM
          (fun best c =>
            match index_of_level_containing c levels with
            | none => Except.error PyErr.typeError
            | some level_index =>
                Except.ok (if level_index < best then level_index else best)) b0 =
        Except.ok b ∧ b ≤ b0 ∧ (cs ≠ [] → b < levels.length) := by
  intro cs
  induction cs with
  | nil =>
    intro b0 _
    exact ⟨b0, rfl, le_refl b0, fun h => absurd rfl h⟩
  | cons c cs ih =>
    intro b0 hall
    obtain ⟨i, hi, hilt⟩ := hall c (List.mem_cons_self c cs)
    have hb1 : (if i < b0 then i else b0) < levels.length := by
      by_cases hcase : i < b0
      · rw [if_pos hcase]; exact hilt
      · rw [if_neg hcase]; omega
    obtain ⟨b, hb_ok, hb_le, _⟩ :=
      ih (if i < b0 then i else b0) (fun c' hc' => hall c' (List.mem_cons_of_mem c hc'))
    refine ⟨b, ?_, ?_, fun _ => by omega⟩
    · rw [List.foldlM_cons, hi]
      simpa using hb_ok
    · by_cases hcase : i < b0
      · rw [if_pos hcase] at hb_le; omega
      · rw [if_neg hcase] at hb_le; omega

theorem holding_couplets_ne_nil (holding : List Card) (h : 2 ≤ holding.length) :
    holding_couplets holding ≠ [] := by
  have hlen : (holding_couplets holding).length = Nat.choose holding.length 2 := by
    unfold holding_couplets
    rw [List.length_map, length_subsets_of_size]
  have hpos : 0 < Nat.choose holding.length 2 := Nat.choose_pos h
  intro hnil
  rw [hnil] at hlen
  simp at hlen
  omega

-- ## Bounds on the probability and the expected pot fraction

theorem tie_sum_le_choose (E W K m : Nat) (hm : m ≤ K + 1) :
    (∑ k ∈ Finset.range m, Nat.choose E k * Nat.choose W (K - k)) ≤
      Nat.choose (E + W) K := by
  rw [Nat.add_choose_eq]
  have hinj : ∀ x ∈ Finset.range m, ∀ y ∈ Finset.range m,
      (fun k => (k, K - k)) x = (fun k => (k, K - k)) y → x = y := by
    intro x _ y _ h
    exact (Prod.mk.injEq x (K - x) y (K - y) ▸ h : x = y ∧ _).1
  have himg : (Finset.range m).image (fun k => (k, K - k)) ⊆ Finset.antidiagonal K := by
    intro p hp
    obtain ⟨k, hk, rfl⟩ := Finset.mem_image.mp hp
    rw [Finset.mem_range] at hk
    rw [Finset.mem_antidiagonal]
    omega
  have himage := @Finset.sum_image (Nat × Nat) Nat Nat
    (fun p => Nat.choose E p.1 * Nat.choose W p.2) _ _
    (Finset.range m) (fun k => (k, K - k)) hinj
  calc (∑ k ∈ Finset.range m, Nat.choose E k * Nat.choose W (K - k))
      = ∑ p ∈ (Finset.range m).image (fun k => (k, K - k)),
          Nat.choose E p.1 * Nat.choose W p.2 := himage.symm
    _ ≤ ∑ p ∈ Finset.antidiagonal K, Nat.choose E p.1 * Nat.choose W p.2 :=
        Finset.sum_le_sum_of_subset himg

theorem expected_nonneg (E W K D : Nat) :
    (0 : ℚ) ≤ if D = 0 then (0 : ℚ) else
      ∑ k ∈ Finset.range (min (E + 1) (K + 1)),
        ((Nat.choose E k * Nat.choose W (K - k) : ℚ) / (D : ℚ)) / ((k : ℚ) + 1) := by
  split
  · exact le_refl 0
  · apply Finset.sum_nonneg
    intro k _
    positivity

theorem expected_le_one (E W K : Nat) :
    (if Nat.choose (E + W) K = 0 then (0 : ℚ) else
      ∑ k ∈ Finset.range (min (E + 1) (K + 1)),
        ((Nat.choose E k * Nat.choose W (K - k) : ℚ) /
          ((Nat.choose (E + W) K : Nat) : ℚ)) / ((k : ℚ) + 1)) ≤ 1 := by
  split
  · exact zero_le_one
  · rename_i hD
    have hDpos : (0 : ℚ) < ((Nat.choose (E + W) K : Nat) : ℚ) := by
      have := Nat.pos_of_ne_zero hD
      exact_mod_cast this
    have hterm : ∀ k ∈ Finset.range (min (E + 1) (K + 1)),
        ((Nat.choose E k * Nat.choose W (K - k) : ℚ) /
          ((Nat.choose (E + W) K : Nat) : ℚ)) / ((k : ℚ) + 1) ≤
        ((Nat.choose E k * Nat.choose W (K - k) : ℚ) /
          ((Nat.choose (E + W) K : Nat) : ℚ)) := by
      intro k _
      apply div_le_self
      · positivity
      · have : (0 : ℚ) ≤ (k : ℚ) := by positivity
        linarith
    calc (∑ k ∈ Finset.range (min (E + 1) (K + 1)),
            ((Nat.choose E k * Nat.choose W (K - k) : ℚ) /
              ((Nat.choose (E + W) K : Nat) : ℚ)) / ((k : ℚ) + 1))
        ≤ ∑ k ∈ Finset.range (min (E + 1) (K + 1)),
            ((Nat.choose E k * Nat.choose W (K - k) : ℚ) /
              ((Nat.choose (E + W) K : Nat) : ℚ)) := Finset.sum_le_sum hterm
      _ = (∑ k ∈ Finset.range (min (E + 1) (K + 1)),
            (Nat.choose E k * Nat.choose W (K - k) : ℚ)) /
              ((Nat.choose (E + W) K : Nat) : ℚ) := by rw [← Finset.sum_div]
      _ ≤ 1 := by
          rw [div_le_one hDpos]
          have hnat := tie_sum_le_choose E W K (min (E + 1) (K + 1))
            (by omega)
          have : ((∑ k ∈ Finset.range (min (E + 1) (K + 1)),
              Nat.choose E k * Nat.choose W (K - k) : Nat) : ℚ) ≤
              ((Nat.choose (E + W) K : Nat) : ℚ) := by exact_mod_cast hnat
          calc (∑ k ∈ Finset.range (min (E + 1) (K + 1)),
                  (Nat.choose E k * Nat.choose W (K - k) : ℚ))
              = ((∑ k ∈ Finset.range (min (E + 1) (K + 1)),
                  Nat.choose E k * Nat.choose W (K - k) : Nat) : ℚ) := by
                push_cast
                rfl
            _ ≤ _ := this

theorem prob_nonneg (n1 n2 : Nat) : (0 : ℚ) ≤ (n1 : ℚ) / (n2 : ℚ) := by
  positivity

theorem prob_le_one (n1 n2 : Nat) (hle : n1 ≤ n2) (h2 : n2 ≠ 0) :
    (n1 : ℚ) / (n2 : ℚ) ≤ 1 := by
  have h2pos : (0 : ℚ) < (n2 : ℚ) := by exact_mod_cast Nat.pos_of_ne_zero h2
  rw [div_le_one h2pos]
  exact_mod_cast hle

-- ## utility returns a value in [0, 1] whenever the holding is well-formed

theorem utility_tail_ok (holding board : List Card) (b : Nat)
    (hb : b < (specify (all_levels board) board).length)
    (htotal : num_opponents_couplets ≤ total_remaining_compatible holding board) :
    ∃ q, utility_tail holding board b = Except.ok q ∧ 0 ≤ q ∧ q ≤ 1 := by
  simp only [utility_tail]
  rw [dif_pos hb]
  have hsum := counts_sum holding board b hb
  have hdenom : Nat.choose
      ((remove_incompatible_couplets
          (flatten ((specify (all_levels board) board).take b)) holding).length +
        (remove_incompatible_couplets
          ((specify (all_levels board) board).get ⟨b, hb⟩) holding).length +
        (remove_incompatible_couplets
          (flatten ((specify (all_levels board) board).drop (b + 1))) holding).length)
      num_opponents_couplets ≠ 0 := by
    rw [hsum]
    have := Nat.choose_pos htotal
    omega
  rw [if_neg hdenom]
  refine ⟨_, rfl, ?_, ?_⟩
  · apply mul_nonneg
    · exact prob_nonneg _ _
    · exact expected_nonneg _ _ _ _
  · apply mul_le_one₀
    · apply prob_le_one
      · exact Nat.choose_le_choose num_opponents_couplets (by omega)
      · exact hdenom
    · exact expected_nonneg _ _ _ _
    · exact expected_le_one _ _ _

theorem utility_total (holding board : List Card)
    (hlen2 : 2 ≤ holding.length) (hnodup : holding.Nodup)
    (hreal : ∀ a ∈ holding, real_card a) (hdisj : ∀ a ∈ holding, a ∉ board)
    (htotal : num_opponents_couplets ≤ total_remaining_compatible holding board) :
    ∃ q, utility holding board = Except.ok q ∧ 0 ≤ q ∧ q ≤ 1 := by
  have hfound := holding_couplet_found holding board hnodup hreal hdisj
  obtain ⟨b, hb_ok, -, hb_lt'⟩ := best_fold_ok (specify (all_levels board) board)
    (holding_couplets holding) (specify (all_levels board) board).length hfound
  have hb_lt := hb_lt' (holding_couplets_ne_nil holding hlen2)
  obtain ⟨q, hq, hq0, hq1⟩ := utility_tail_ok holding board b hb_lt htotal
  refine ⟨q, ?_, hq0, hq1⟩
  show best_level_index (holding_couplets holding) (specify (all_levels board) board) >>=
    (fun best => utility_tail holding board best) = Except.ok q
  have hb_ok' : best_level_index (holding_couplets holding)
      (specify (all_levels board) board) = Except.ok b := hb_ok
  rw [hb_ok']
  show utility_tail holding board b = Except.ok q
  exact hq

set_option maxRecDepth 100000 in
/-- Counterexample to C2: `utility` performs no input validation.  On a board
consisting of the same physical card twice (a malformed input), with a
well-formed two-card holding, it does not fail fast with a validation error:
it builds the ladder and proceeds all the way to a numeric result. -/
theorem C2_counterexample :
    ¬ (([⟨0, 0⟩, ⟨0, 0⟩] : List Card).Nodup) ∧
    ∃ q, utility [⟨12, 3⟩, ⟨11, 3⟩] [⟨0, 0⟩, ⟨0, 0⟩] = Except.ok q := by
  constructor
  · decide
  · obtain ⟨q, hq, -, -⟩ := utility_total [⟨12, 3⟩, ⟨11, 3⟩] [⟨0, 0⟩, ⟨0, 0⟩]
      (by decide) (by decide) (by decide) (by decide) (by decide)
    exact ⟨q, hq⟩

/-- C2 (amended): `utility` performs no input validation.  Even when the board
contains duplicate physical cards, a duplicate-free holding of at least two
real cards disjoint from the board flows through ladder construction and
produces a numeric result rather than a validation error (and a malformed
holding instead surfaces later as an unhandled `TypeError`, after the ladder
has already been built). -/
theorem C2_amended_no_validation (holding board : List Card)
    (_hdup : ¬ board.Nodup)
    (hlen2 : 2 ≤ holding.length) (hnodup : holding.Nodup)
    (hreal : ∀ a ∈ holding, real_card a) (hdisj : ∀ a ∈ holding, a ∉ board)
    (htotal : num_opponents_couplets ≤ total_remaining_compatible holding board) :
    ∃ q, utility holding board = Except.ok q := by
  obtain ⟨q, hq, -, -⟩ := utility_total holding board hlen2 hnodup hreal hdisj htotal
  exact ⟨q, hq⟩

set_option maxRecDepth 100000 in
/-- Witness for the amended C2 at a duplicated board. -/
theorem C2_amended_no_validation_witness :
    ¬ (([⟨0, 0⟩, ⟨0, 0⟩] : List Card).Nodup) ∧
    ∃ q, utility [⟨12, 2⟩, ⟨11, 2⟩] [⟨0, 0⟩, ⟨0, 0⟩] = Except.ok q :=
  ⟨by decide,
    C2_amended_no_validation [⟨12, 2⟩, ⟨11, 2⟩] [⟨0, 0⟩, ⟨0, 0⟩]
      (by decide) (by decide) (by decide) (by decide) (by decide) (by decide)⟩

/-- C3: for every valid holding and board, `utility` never lets a
combinatorial "choose more than available" condition propagate an exception:
it returns a value; and in the degenerate case where the opponents' couplet
count exceeds the total number of remaining couplets compatible with the
holding, it returns 0 (under the program's fixed parameters that degenerate
case cannot in fact arise for valid inputs, since the total is
`choose 43 2 = 903` while the opponents hold 30 couplets). -/
theorem C3_no_combinatorial_exception (holding board : List Card)
    (hb : valid_board board) (hh : valid_holding holding board) :
    (∃ q, utility holding board = Except.ok q) ∧
    (total_remaining_compatible holding board < num_opponents_couplets →
      utility holding board = Except.ok 0) := by
  obtain ⟨hlen, hnodup, hreal, hdisj⟩ := hh
  constructor
  · obtain ⟨q, hq, -, -⟩ := utility_total holding board
      (by rw [hlen]; decide) hnodup hreal hdisj
      (by rw [total_remaining_compatible_valid holding board hb ⟨hlen, hnodup, hreal, hdisj⟩]
          decide)
    exact ⟨q, hq⟩
  · intro hlt
    rw [total_remaining_compatible_valid holding board hb ⟨hlen, hnodup, hreal, hdisj⟩] at hlt
    exact absurd hlt (by decide)

/-- Witness for C3 at a concrete valid holding and board. -/
theorem C3_no_combinatorial_exception_witness :
    valid_board [⟨8, 3⟩, ⟨7, 3⟩, ⟨6, 3⟩, ⟨5, 3⟩, ⟨4, 3⟩] ∧
    valid_holding [⟨12, 3⟩, ⟨11, 3⟩, ⟨10, 3⟩, ⟨9, 3⟩]
      [⟨8, 3⟩, ⟨7, 3⟩, ⟨6, 3⟩, ⟨5, 3⟩, ⟨4, 3⟩] ∧
    ((∃ q, utility [⟨12, 3⟩, ⟨11, 3⟩, ⟨10, 3⟩, ⟨9, 3⟩]
        [⟨8, 3⟩, ⟨7, 3⟩, ⟨6, 3⟩, ⟨5, 3⟩, ⟨4, 3⟩] = Except.ok q) ∧
      (total_remaining_compatible [⟨12, 3⟩, ⟨11, 3⟩, ⟨10, 3⟩, ⟨9, 3⟩]
          [⟨8, 3⟩, ⟨7, 3⟩, ⟨6, 3⟩, ⟨5, 3⟩, ⟨4, 3⟩] < num_opponents_couplets →
        utility [⟨12, 3⟩, ⟨11, 3⟩, ⟨10, 3⟩, ⟨9, 3⟩]
          [⟨8, 3⟩, ⟨7, 3⟩, ⟨6, 3⟩, ⟨5, 3⟩, ⟨4, 3⟩] = Except.ok 0)) :=
  ⟨by decide, by decide,
    C3_no_combinatorial_exception [⟨12, 3⟩, ⟨11, 3⟩, ⟨10, 3⟩, ⟨9, 3⟩]
      [⟨8, 3⟩, ⟨7, 3⟩, ⟨6, 3⟩, ⟨5, 3⟩, ⟨4, 3⟩] (by decide) (by decide)⟩

/-- C4: for every valid holding and board, `utility` returns a value, and that
value lies between 0 and 1 inclusive. -/
theorem C4_utility_bounds (holding board : List Card)
    (hb : valid_board board) (hh : valid_holding holding board) :
    ∃ q, utility holding board = Except.ok q ∧ 0 ≤ q ∧ q ≤ 1 := by
  obtain ⟨hlen, hnodup, hreal, hdisj⟩ := hh
  exact utility_total holding board (by rw [hlen]; decide) hnodup hreal hdisj
    (by rw [total_remaining_compatible_valid holding board hb ⟨hlen, hnodup, hreal, hdisj⟩]
        decide)

/-- Witness for C4 at a concrete valid holding and board. -/
theorem C4_utility_bounds_witness :
    valid_board [⟨8, 2⟩, ⟨7, 2⟩, ⟨6, 2⟩, ⟨5, 2⟩, ⟨4, 2⟩] ∧
    valid_holding [⟨12, 2⟩, ⟨11, 2⟩, ⟨10, 2⟩, ⟨9, 2⟩]
      [⟨8, 2⟩, ⟨7, 2⟩, ⟨6, 2⟩, ⟨5, 2⟩, ⟨4, 2⟩] ∧
    ∃ q, utility [⟨12, 2⟩, ⟨11, 2⟩, ⟨10, 2⟩, ⟨9, 2⟩]
        [⟨8, 2⟩, ⟨7, 2⟩, ⟨6, 2⟩, ⟨5, 2⟩, ⟨4, 2⟩] = Except.ok q ∧ 0 ≤ q ∧ q ≤ 1 :=
  ⟨by decide, by decide,
    C4_utility_bounds [⟨12, 2⟩, ⟨11, 2⟩, ⟨10, 2⟩, ⟨9, 2⟩]
      [⟨8, 2⟩, ⟨7, 2⟩, ⟨6, 2⟩, ⟨5, 2⟩, ⟨4, 2⟩] (by decide) (by decide)⟩
